import Mathlib

/-!
Verification of the bounded random integer sampler from random.go
(package random, function UniformUint32) and its test-suite companions
(uniformUint32Simple, uintn, computeVStart from random_test.go).

The Go code draws 32-bit values from a Source and converts them into a
uniformly distributed value in [0, n).  We embed the functions shallowly:
a source is a finite list of draws (each a Nat below 2^32), machine
integers become Nat with explicit `% 2^32` at every uint32 cast, and the
unbounded rejection loop becomes structural recursion over the draw list,
returning `outOfDraws` when the list is exhausted.
-/

namespace Random

/-- The modulus of 32-bit arithmetic. -/
def two32 : Nat := 2 ^ 32

/-- Outcome of running one of the sampling functions against a finite list
of source draws.  `panicked` models a Go panic (the `n = 0` precondition
check, or a division by zero); `outOfDraws` means every draw in the finite
list was rejected; `ok r k` means the call returned `r` after consuming
exactly `k` draws from the source. -/
inductive Result where
  | panicked : Result
  | outOfDraws : Result
  | ok : Nat → Nat → Result
deriving DecidableEq

/-- Embedding of `thresh := uint32(-n) % uint32(n)` from random.go line 133:
the 32-bit wraparound negation of `n` (`uint32(-n) = (2^32 - n) % 2^32`),
then remainder by `n`. -/
def threshold (n : Nat) : Nat := (two32 - n) % two32 % n

/-- Embedding of the rejection loop of `UniformUint32` (random.go lines
139-146).  Each iteration takes the next draw `v`, computes
`prod = uint64(v) * uint64(n)` (no overflow: both factors are below 2^32,
so `prod` is exact as a Nat), `low = uint32(prod) = prod % 2^32`, and
accepts when `low >= thresh`, returning `uint32(prod >> 32)
= prod / 2^32 % 2^32` together with the number of draws consumed. -/
def lemireLoop (n thresh : Nat) : List Nat → Result
  | [] => Result.outOfDraws
  | v :: rest =>
    if thresh ≤ v * n % two32 then Result.ok (v * n / two32 % two32) 1
    else
      match lemireLoop n thresh rest with
      | Result.ok r k => Result.ok r (k + 1)
      | r => r

/-- Embedding of `UniformUint32` (random.go lines 9-147): panic when
`n = 0`; otherwise run the unrolled first iteration (draw `v`, compute
`prod = v * n` and `low = prod % 2^32`, accept immediately when
`low >= n`, else compute the threshold lazily and accept when
`low >= thresh`), falling back to the rejection loop on the remaining
draws. -/
def UniformUint32 (n : Nat) (draws : List Nat) : Result :=
  if n = 0 then Result.panicked
  else
    match draws with
    | [] => Result.outOfDraws
    | v :: rest =>
      if n ≤ v * n % two32 then Result.ok (v * n / two32 % two32) 1
      else if threshold n ≤ v * n % two32 then Result.ok (v * n / two32 % two32) 1
      else
        match lemireLoop n (threshold n) rest with
        | Result.ok r k => Result.ok r (k + 1)
        | r => r

/-- Embedding of `uniformUint32Simple` from random_test.go (lines 116-126):
compute `thresh := uint32(-n) % uint32(n)` up front and run the plain
one-remainder rejection loop (whose body is textually identical to the
loop of `UniformUint32`, hence shared here).  In Go, `n = 0` makes the
remainder operation panic with a division by zero, modelled by
`panicked`. -/
def uniformUint32Simple (n : Nat) (draws : List Nat) : Result :=
  if n = 0 then Result.panicked
  else lemireLoop n (threshold n) draws

/-- Loop of the straightforward two-remainder algorithm quoted in the
comment of random.go (lines 105-111): draw `v`, accept exactly when
`v < thresh` (the cutoff), and return `v % n`. -/
def slowLoop (n cutoff : Nat) : List Nat → Result
  | [] => Result.outOfDraws
  | v :: rest =>
    if v < cutoff then Result.ok (v % n) 1
    else
      match slowLoop n cutoff rest with
      | Result.ok r k => Result.ok r (k + 1)
      | r => r

/-- The straightforward two-remainder reference algorithm from the comment
in random.go (lines 101-113): `thresh := 2^32 - (2^32 % n)`, repeatedly
draw `v`, accept exactly when `v < thresh`, and return `v % n`.  `n = 0`
makes the remainder operation fail, modelled by `panicked`. -/
def uniformUint32TwoRemainder (n : Nat) (draws : List Nat) : Result :=
  if n = 0 then Result.panicked
  else slowLoop n (two32 - two32 % n) draws

/-- Loop of `uintn` from random_test.go (lines 286-297): each draw `d` is
masked to `numBits` bits (`v := randUint32(src) & mask = d % 2^numBits`),
then `prod = uint64(v) * uint64(n)`, `low = uint32(prod) & mask
= prod % 2^32 % 2^numBits`, accepting when `low >= threshold` and
returning `uint32(prod >> numBits) = prod / 2^numBits % 2^32`. -/
def uintnLoop (n numBits thresh : Nat) : List Nat → Result
  | [] => Result.outOfDraws
  | d :: rest =>
    if thresh ≤ d % 2 ^ numBits * n % two32 % 2 ^ numBits then
      Result.ok (d % 2 ^ numBits * n / 2 ^ numBits % two32) 1
    else
      match uintnLoop n numBits thresh rest with
      | Result.ok r k => Result.ok r (k + 1)
      | r => r

/-- Embedding of `uintn` from random_test.go (lines 272-297), the
generalized width variant used for exhaustive testing: panic when `n = 0`,
when `n` does not fit in `numBits` bits, or when `numBits >= 32`;
otherwise run the rejection loop with `threshold := (1 << numBits) % n
= 2^numBits % n`. -/
def uintn (n numBits : Nat) (draws : List Nat) : Result :=
  if n = 0 then Result.panicked
  else if 2 ^ numBits ≤ n then Result.panicked
  else if 32 ≤ numBits then Result.panicked
  else uintnLoop n numBits (2 ^ numBits % n) draws

/-- Embedding of `computeVStart` from random_test.go (lines 378-382):
`ceil((i * 2^32) / n)` computed as `(i << 32 + (n - 1)) / n` in uint64
arithmetic (no overflow for 32-bit `i` and `n`). -/
def computeVStart (i n : Nat) : Nat := (i * two32 + (n - 1)) / n

theorem two32_pos : 0 < two32 := by norm_num [two32]

/-- The threshold is always strictly below `n`. -/
theorem threshold_lt {n : Nat} (hn : 0 < n) : threshold n < n :=
  Nat.mod_lt _ hn

/-- The wraparound computation of the threshold agrees with `2^32 mod n`. -/
theorem threshold_eq {n : Nat} (hn : 0 < n) (h32 : n ≤ two32) :
    threshold n = two32 % n := by
  unfold threshold
  have h1 : two32 - n < two32 := by
    have := two32_pos
    omega
  rw [Nat.mod_eq_of_lt h1]
  conv_rhs => rw [← Nat.sub_add_cancel h32]
  rw [Nat.add_mod_right]

/-- Ceiling division characterization: `(a + n - 1) / n ≤ v` iff `a ≤ v * n`. -/
theorem ceil_le_iff {a n : Nat} (v : Nat) (hn : 0 < n) :
    (a + n - 1) / n ≤ v ↔ a ≤ v * n := by
  nth_rewrite 1 [← Nat.lt_succ_iff]
  rw [Nat.div_lt_iff_lt_mul hn, Nat.succ_mul]
  generalize v * n = X
  omega

/-- Core counting fact behind exact uniformity: among the `M` possible
draw values `v < M`, exactly `M / n` satisfy the acceptance condition
`M % n ≤ v * n % M` while producing the quotient `v * n / M = i`.  The
accepted draws for `i` form the contiguous block of `v` with
`i * M + M % n ≤ v * n < (i + 1) * M`, an interval of length
`M - M % n = n * (M / n)` in product space, hence containing exactly
`M / n` multiples of `n`. -/
theorem card_accept_fiber (M n i : Nat) (hn : 0 < n) (hnM : n ≤ M) (hi : i < n) :
    ((Finset.range M).filter fun v => M % n ≤ v * n % M ∧ v * n / M = i).card
      = M / n := by
  have hM : 0 < M := lt_of_lt_of_le hn hnM
  have hMeq : n * (M / n) + M % n = M := Nat.div_add_mod M n
  have hset : ((Finset.range M).filter fun v => M % n ≤ v * n % M ∧ v * n / M = i)
      = Finset.Ico ((i * M + M % n + n - 1) / n)
          ((i * M + M % n + n - 1) / n + M / n) := by
    have hcl : i * M + M % n ≤ (i * M + M % n + n - 1) / n * n :=
      (ceil_le_iff _ hn).mp le_rfl
    have hcu : (i * M + M % n + n - 1) / n * n < i * M + M % n + n := by
      by_contra hcon
      push_neg at hcon
      have h2 : (i * M + M % n + n + n - 1) / n ≤ (i * M + M % n + n - 1) / n :=
        (ceil_le_iff _ hn).mpr hcon
      have h3 : i * M + M % n + n + n - 1 = i * M + M % n + n - 1 + n := by omega
      rw [h3, Nat.add_div_right _ hn] at h2
      omega
    ext v
    simp only [Finset.mem_filter, Finset.mem_range, Finset.mem_Ico]
    constructor
    · rintro ⟨hvM, hacc, hdiv⟩
      have hmod := Nat.div_add_mod (v * n) M
      rw [hdiv] at hmod
      have hmlt : v * n % M < M := Nat.mod_lt _ hM
      have hic : M * i = i * M := Nat.mul_comm M i
      have hlow : i * M + M % n ≤ v * n := by omega
      have hhigh : v * n < i * M + M := by omega
      refine ⟨(ceil_le_iff v hn).mpr hlow, ?_⟩
      by_contra hcon
      push_neg at hcon
      have h4 : ((i * M + M % n + n - 1) / n + M / n) * n ≤ v * n :=
        Nat.mul_le_mul_right n hcon
      rw [Nat.add_mul] at h4
      have h5 : M / n * n = n * (M / n) := Nat.mul_comm _ _
      omega
    · rintro ⟨hcle, hlt⟩
      have h4 : i * M + M % n ≤ v * n := (ceil_le_iff v hn).mp hcle
      have h5 : v * n < i * M + M := by
        have h7 : (v + 1) * n ≤ ((i * M + M % n + n - 1) / n + M / n) * n :=
          Nat.mul_le_mul_right n hlt
        rw [Nat.add_mul, Nat.add_mul, Nat.one_mul] at h7
        have h8 : M / n * n = n * (M / n) := Nat.mul_comm _ _
        omega
      have hvM : v < M := by
        have h9 : v * n < M * n := by
          have h12 : (i + 1) * M ≤ n * M := Nat.mul_le_mul_right M hi
          rw [Nat.add_mul, Nat.one_mul] at h12
          have h13 : n * M = M * n := Nat.mul_comm _ _
          omega
        exact lt_of_mul_lt_mul_right h9 (Nat.zero_le n)
      have hdiv : v * n / M = i := by
        apply Nat.div_eq_of_lt_le
        · omega
        · rw [Nat.add_mul, Nat.one_mul]
          omega
      refine ⟨hvM, ?_, hdiv⟩
      have hmod := Nat.div_add_mod (v * n) M
      rw [hdiv] at hmod
      have hic : M * i = i * M := Nat.mul_comm M i
      omega
  rw [hset, Nat.card_Ico, Nat.add_sub_cancel_left]

/-- Among the draws below `q * n`, exactly `q` have remainder `i` mod `n`. -/
theorem card_mod_fiber (q n i : Nat) (hn : 0 < n) (hi : i < n) :
    ((Finset.range (q * n)).filter fun v => v % n = i).card = q := by
  have himg : ((Finset.range (q * n)).filter fun v => v % n = i)
      = (Finset.range q).image fun j => j * n + i := by
    ext v
    simp only [Finset.mem_filter, Finset.mem_range, Finset.mem_image]
    constructor
    · rintro ⟨hv, hmod⟩
      refine ⟨v / n, (Nat.div_lt_iff_lt_mul hn).mpr hv, ?_⟩
      have h1 := Nat.div_add_mod v n
      have h2 : n * (v / n) = v / n * n := Nat.mul_comm _ _
      omega
    · rintro ⟨j, hj, rfl⟩
      constructor
      · have h2 : (j + 1) * n ≤ q * n := Nat.mul_le_mul_right n hj
        rw [Nat.add_mul, Nat.one_mul] at h2
        omega
      · rw [Nat.add_comm, Nat.add_mul_mod_self_right]
        exact Nat.mod_eq_of_lt hi
  rw [himg, Finset.card_image_of_injective _ ?_, Finset.card_range]
  intro j1 j2 h
  have h0 : j1 * n + i = j2 * n + i := h
  have h1 : j1 * n = j2 * n := by omega
  exact Nat.eq_of_mul_eq_mul_right hn h1

theorem lemireLoop_cons_accept {n t v : Nat} (rest : List Nat)
    (h : t ≤ v * n % two32) :
    lemireLoop n t (v :: rest) = Result.ok (v * n / two32 % two32) 1 := by
  unfold lemireLoop
  rw [if_pos h]

theorem lemireLoop_cons_reject {n t v : Nat} (rest : List Nat)
    (h : ¬ t ≤ v * n % two32) :
    lemireLoop n t (v :: rest)
      = match lemireLoop n t rest with
        | Result.ok r k => Result.ok r (k + 1)
        | r => r := by
  conv_lhs => rw [lemireLoop]
  rw [if_neg h]

/-- Unfolding of `UniformUint32` on a non-empty draw list with `n ≠ 0`. -/
theorem UniformUint32_cons {n : Nat} (v : Nat) (rest : List Nat) (hn0 : n ≠ 0) :
    UniformUint32 n (v :: rest) =
      if n ≤ v * n % two32 then Result.ok (v * n / two32 % two32) 1
      else if threshold n ≤ v * n % two32 then Result.ok (v * n / two32 % two32) 1
      else
        match lemireLoop n (threshold n) rest with
        | Result.ok r k => Result.ok r (k + 1)
        | r => r := by
  unfold UniformUint32
  rw [if_neg hn0]

/-- The optimized function agrees with the plain one-remainder loop of
`uniformUint32Simple`: the `low ≥ n` fast accept never changes the
outcome because the threshold is strictly below `n`. -/
theorem uniform_eq_simple_aux (n : Nat) (draws : List Nat) (hn : 0 < n) :
    UniformUint32 n draws = uniformUint32Simple n draws := by
  have hn0 : n ≠ 0 := Nat.pos_iff_ne_zero.mp hn
  unfold uniformUint32Simple
  rw [if_neg hn0]
  match draws with
  | [] =>
    unfold UniformUint32
    rw [if_neg hn0]
    rfl
  | v :: rest =>
    rw [UniformUint32_cons v rest hn0]
    by_cases hacc : threshold n ≤ v * n % two32
    · rw [lemireLoop_cons_accept rest hacc]
      by_cases hfast : n ≤ v * n % two32
      · rw [if_pos hfast]
      · rw [if_neg hfast, if_pos hacc]
    · have hfast : ¬ n ≤ v * n % two32 := fun hc =>
        hacc (le_trans (le_of_lt (threshold_lt hn)) hc)
      rw [if_neg hfast, if_neg hacc, lemireLoop_cons_reject rest hacc]

/-- Inversion of the rejection loop: a successful run accepts some draw of
the list and returns the high word of the product of that draw with `n`. -/
theorem lemireLoop_ok_inv {n t : Nat} :
    ∀ {draws : List Nat} {r k : Nat}, lemireLoop n t draws = Result.ok r k →
      ∃ v ∈ draws, t ≤ v * n % two32 ∧ r = v * n / two32 % two32 := by
  intro draws
  induction draws with
  | nil =>
    intro r k h
    exact absurd h (by unfold lemireLoop; intro hc; cases hc)
  | cons v rest ih =>
    intro r k h
    by_cases hacc : t ≤ v * n % two32
    · rw [lemireLoop_cons_accept rest hacc] at h
      injection h with h1 h2
      exact ⟨v, List.mem_cons_self v rest, hacc, h1.symm⟩
    · rw [lemireLoop_cons_reject rest hacc] at h
      cases hrec : lemireLoop n t rest with
      | ok r2 k2 =>
        rw [hrec] at h
        injection h with h1 h2
        obtain ⟨w, hw, hwa, hwr⟩ := ih hrec
        exact ⟨w, List.mem_cons_of_mem v hw, hwa, h1 ▸ hwr⟩
      | panicked => rw [hrec] at h; cases h
      | outOfDraws => rw [hrec] at h; cases h

/-- The rejection loop succeeds as soon as the draw list contains one
accepted value. -/
theorem lemireLoop_ok_of_mem {n t : Nat} :
    ∀ {draws : List Nat}, (∃ v ∈ draws, t ≤ v * n % two32) →
      ∃ r k, lemireLoop n t draws = Result.ok r k := by
  intro draws
  induction draws with
  | nil =>
    rintro ⟨v, hv, _⟩
    exact absurd hv (List.not_mem_nil v)
  | cons v rest ih =>
    rintro ⟨w, hw, hwa⟩
    by_cases hacc : t ≤ v * n % two32
    · exact ⟨_, _, lemireLoop_cons_accept rest hacc⟩
    · rw [lemireLoop_cons_reject rest hacc]
      have hwrest : w ∈ rest := by
        rcases List.mem_cons.mp hw with h | h
        · exact absurd (h ▸ hwa) hacc
        · exact h
      obtain ⟨r, k, hres⟩ := ih ⟨w, hwrest, hwa⟩
      rw [hres]
      exact ⟨r, k + 1, rfl⟩

/-- A single-draw call of the optimized function either accepts the draw,
returning the high word, or exhausts the list. -/
theorem uniform_single_cases {n : Nat} (v : Nat) (hn : 0 < n) :
    UniformUint32 n [v]
      = if threshold n ≤ v * n % two32 then Result.ok (v * n / two32 % two32) 1
        else Result.outOfDraws := by
  rw [uniform_eq_simple_aux n [v] hn]
  unfold uniformUint32Simple
  rw [if_neg (Nat.pos_iff_ne_zero.mp hn)]
  by_cases h : threshold n ≤ v * n % two32
  · rw [lemireLoop_cons_accept [] h, if_pos h]
  · rw [lemireLoop_cons_reject [] h, if_neg h]
    have h0 : lemireLoop n (threshold n) ([] : List Nat) = Result.outOfDraws := rfl
    rw [h0]

/-- With a 32-bit bound and a 32-bit draw, a single-draw call returns `i`
exactly when the draw is accepted (`v * n % 2^32 ≥ 2^32 % n`) and the high
word of the product is `i`. -/
theorem uniform_single_ok_iff {n v i : Nat} (hn : 0 < n) (h32 : n < two32)
    (hv : v < two32) :
    UniformUint32 n [v] = Result.ok i 1
      ↔ (two32 % n ≤ v * n % two32 ∧ v * n / two32 = i) := by
  rw [uniform_single_cases v hn, threshold_eq hn (le_of_lt h32)]
  have hdl : v * n / two32 < two32 := by
    have h1 : v * n < two32 * two32 :=
      calc v * n < two32 * n := (Nat.mul_lt_mul_right hn).mpr hv
        _ ≤ two32 * two32 := Nat.mul_le_mul_left two32 (le_of_lt h32)
    exact (Nat.div_lt_iff_lt_mul two32_pos).mpr h1
  rw [Nat.mod_eq_of_lt hdl]
  by_cases h : two32 % n ≤ v * n % two32
  · rw [if_pos h]
    constructor
    · intro he
      injection he with h1 _
      exact ⟨h, h1⟩
    · rintro ⟨_, h2⟩
      rw [h2]
  · rw [if_neg h]
    constructor
    · intro he
      exact Result.noConfusion he
    · rintro ⟨hc, _⟩
      exact absurd hc h

/-- A single-draw call of the optimized function runs out of draws exactly
when the draw is rejected. -/
theorem uniform_single_reject_iff {n v : Nat} (hn : 0 < n) (h32 : n ≤ two32) :
    UniformUint32 n [v] = Result.outOfDraws ↔ v * n % two32 < two32 % n := by
  rw [uniform_single_cases v hn, threshold_eq hn h32]
  by_cases h : two32 % n ≤ v * n % two32
  · rw [if_pos h]
    constructor
    · intro he
      exact Result.noConfusion he
    · intro hlt
      omega
  · rw [if_neg h]
    constructor
    · intro _
      omega
    · intro _
      rfl

/-- Every successful run of the optimized function with 32-bit draws
returns a value below the bound. -/
theorem uniform_ok_lt {n : Nat} (hn : 0 < n) {draws : List Nat}
    (hd : ∀ v ∈ draws, v < two32) {r k : Nat}
    (hok : UniformUint32 n draws = Result.ok r k) : r < n := by
  rw [uniform_eq_simple_aux n draws hn] at hok
  unfold uniformUint32Simple at hok
  rw [if_neg (Nat.pos_iff_ne_zero.mp hn)] at hok
  obtain ⟨v, hv, _, hr⟩ := lemireLoop_ok_inv hok
  have h1 : v * n < n * two32 := by
    have h0 : v * n < two32 * n := (Nat.mul_lt_mul_right hn).mpr (hd v hv)
    have hc : two32 * n = n * two32 := Nat.mul_comm _ _
    omega
  have h2 : v * n / two32 < n := (Nat.div_lt_iff_lt_mul two32_pos).mpr h1
  have h3 : v * n / two32 % two32 ≤ v * n / two32 := Nat.mod_le _ _
  omega

/-- Exactly `M % n` of the `M` possible draw values are rejected. -/
theorem card_reject (M n : Nat) (hn : 0 < n) (hnM : n ≤ M) :
    ((Finset.range M).filter fun v => v * n % M < M % n).card = M % n := by
  have hM : 0 < M := lt_of_lt_of_le hn hnM
  have haccept : ((Finset.range M).filter fun v => M % n ≤ v * n % M).card
      = n * (M / n) := by
    have hfib : ∀ v ∈ (Finset.range M).filter fun v => M % n ≤ v * n % M,
        v * n / M ∈ Finset.range n := by
      intro v hv
      simp only [Finset.mem_filter, Finset.mem_range] at hv
      have h9 : v * n < n * M := by
        have h0 : v * n < M * n := (Nat.mul_lt_mul_right hn).mpr hv.1
        have hc : M * n = n * M := Nat.mul_comm _ _
        omega
      exact Finset.mem_range.mpr ((Nat.div_lt_iff_lt_mul hM).mpr h9)
    rw [Finset.card_eq_sum_card_fiberwise hfib]
    have hfibcard : ∀ i ∈ Finset.range n,
        (((Finset.range M).filter fun v => M % n ≤ v * n % M).filter
          fun v => v * n / M = i).card = M / n := by
      intro i hi
      rw [Finset.filter_filter]
      exact card_accept_fiber M n i hn hnM (Finset.mem_range.mp hi)
    rw [Finset.sum_congr rfl hfibcard, Finset.sum_const, Finset.card_range,
      smul_eq_mul]
  have hsplit := @Finset.filter_card_add_filter_neg_card_eq_card Nat
    (Finset.range M) (fun v => M % n ≤ v * n % M) _ _
  have hneg : ((Finset.range M).filter fun v => ¬ M % n ≤ v * n % M)
      = (Finset.range M).filter fun v => v * n % M < M % n :=
    Finset.filter_congr fun v _ => by rw [Nat.not_le]
  rw [hneg] at hsplit
  have hcr : (Finset.range M).card = M := Finset.card_range M
  have hMeq : n * (M / n) + M % n = M := Nat.div_add_mod M n
  omega

/-- Single-draw characterization of the two-remainder reference algorithm:
it returns `v % n` when `v` is below the cutoff. -/
theorem twoRemainder_single_ok_iff {n v i : Nat} (hn : 0 < n) :
    uniformUint32TwoRemainder n [v] = Result.ok i 1
      ↔ (v < two32 - two32 % n ∧ v % n = i) := by
  unfold uniformUint32TwoRemainder
  rw [if_neg (Nat.pos_iff_ne_zero.mp hn)]
  by_cases h : v < two32 - two32 % n
  · unfold slowLoop
    rw [if_pos h]
    constructor
    · intro he
      injection he with h1 _
      exact ⟨h, h1⟩
    · rintro ⟨_, h2⟩
      rw [h2]
  · unfold slowLoop
    rw [if_neg h]
    constructor
    · intro he
      exact Result.noConfusion he
    · rintro ⟨hc, _⟩
      exact absurd hc h

/-- Single-draw rejection of the two-remainder reference algorithm. -/
theorem twoRemainder_single_reject_iff {n v : Nat} (hn : 0 < n) :
    uniformUint32TwoRemainder n [v] = Result.outOfDraws
      ↔ two32 - two32 % n ≤ v := by
  unfold uniformUint32TwoRemainder
  rw [if_neg (Nat.pos_iff_ne_zero.mp hn)]
  by_cases h : v < two32 - two32 % n
  · unfold slowLoop
    rw [if_pos h]
    constructor
    · intro he
      exact Result.noConfusion he
    · intro hc
      omega
  · unfold slowLoop
    rw [if_neg h]
    constructor
    · intro _
      omega
    · intro _
      rfl

/-- Per-output count for the two-remainder reference algorithm: each result
`i < n` is produced by exactly `2^32 / n` of the `2^32` first draws. -/
theorem card_slow_fiber (n i : Nat) (hn : 0 < n) (hi : i < n) :
    ((Finset.range two32).filter
      fun v => v < two32 - two32 % n ∧ v % n = i).card = two32 / n := by
  have hq : two32 - two32 % n = two32 / n * n := by
    have h1 := Nat.div_add_mod two32 n
    have hc : n * (two32 / n) = two32 / n * n := Nat.mul_comm _ _
    omega
  have hsub : ((Finset.range two32).filter
        fun v => v < two32 - two32 % n ∧ v % n = i)
      = (Finset.range (two32 / n * n)).filter fun v => v % n = i := by
    ext v
    simp only [Finset.mem_filter, Finset.mem_range]
    have hle : two32 / n * n ≤ two32 := Nat.div_mul_le_self _ _
    constructor
    · rintro ⟨_, h1, h2⟩
      exact ⟨hq ▸ h1, h2⟩
    · rintro ⟨h1, h2⟩
      exact ⟨lt_of_lt_of_le h1 hle, hq ▸ h1, h2⟩
  rw [hsub]
  exact card_mod_fiber (two32 / n) n i hn hi

/-- The two-remainder reference algorithm rejects exactly `2^32 mod n` of
the `2^32` possible first draws. -/
theorem card_slow_reject (n : Nat) (hn : 0 < n) :
    ((Finset.range two32).filter fun v => two32 - two32 % n ≤ v).card
      = two32 % n := by
  have h1 : ((Finset.range two32).filter fun v => two32 - two32 % n ≤ v)
      = Finset.Ico (two32 - two32 % n) two32 := by
    ext v
    simp only [Finset.mem_filter, Finset.mem_range, Finset.mem_Ico]
    omega
  rw [h1, Nat.card_Ico]
  have hle : two32 % n ≤ two32 := Nat.mod_le _ _
  omega

theorem uintnLoop_cons_accept {n numBits t d : Nat} (rest : List Nat)
    (h : t ≤ d % 2 ^ numBits * n % two32 % 2 ^ numBits) :
    uintnLoop n numBits t (d :: rest)
      = Result.ok (d % 2 ^ numBits * n / 2 ^ numBits % two32) 1 := by
  unfold uintnLoop
  rw [if_pos h]

theorem uintnLoop_cons_reject {n numBits t d : Nat} (rest : List Nat)
    (h : ¬ t ≤ d % 2 ^ numBits * n % two32 % 2 ^ numBits) :
    uintnLoop n numBits t (d :: rest)
      = match uintnLoop n numBits t rest with
        | Result.ok r k => Result.ok r (k + 1)
        | r => r := by
  conv_lhs => rw [uintnLoop]
  rw [if_neg h]

/-- Single-draw characterization of the generalized width variant `uintn`:
for a `numBits`-bit draw `v`, the call returns `i` exactly when the draw
is accepted (`v * n % 2^numBits ≥ 2^numBits % n`) and the product shifted
down by `numBits` equals `i`. -/
theorem uintn_single_ok_iff {n numBits v i : Nat} (hn : 0 < n)
    (hb : numBits < 32) (hnb : n < 2 ^ numBits) (hv : v < 2 ^ numBits) :
    uintn n numBits [v] = Result.ok i 1
      ↔ (2 ^ numBits % n ≤ v * n % 2 ^ numBits ∧ v * n / 2 ^ numBits = i) := by
  have hM : 0 < 2 ^ numBits := Nat.two_pow_pos numBits
  have hdvd : (2 : Nat) ^ numBits ∣ two32 := by
    show (2 : Nat) ^ numBits ∣ 2 ^ 32
    exact pow_dvd_pow 2 (le_of_lt hb)
  have hveq : v % 2 ^ numBits = v := Nat.mod_eq_of_lt hv
  have hlow : v % 2 ^ numBits * n % two32 % 2 ^ numBits = v * n % 2 ^ numBits := by
    rw [hveq, Nat.mod_mod_of_dvd _ hdvd]
  have hval : v % 2 ^ numBits * n / 2 ^ numBits % two32 = v * n / 2 ^ numBits := by
    rw [hveq]
    apply Nat.mod_eq_of_lt
    have h1 : v * n < 2 ^ numBits * 2 ^ numBits :=
      calc v * n ≤ v * 2 ^ numBits := Nat.mul_le_mul_left v (le_of_lt hnb)
        _ < 2 ^ numBits * 2 ^ numBits := (Nat.mul_lt_mul_right hM).mpr hv
    have h2 : v * n / 2 ^ numBits < 2 ^ numBits :=
      (Nat.div_lt_iff_lt_mul hM).mpr h1
    have h3 : (2 : Nat) ^ numBits < 2 ^ 32 := Nat.pow_lt_pow_right (by norm_num) hb
    have h4 : two32 = 2 ^ 32 := rfl
    omega
  unfold uintn
  rw [if_neg (Nat.pos_iff_ne_zero.mp hn),
    if_neg (by omega : ¬ 2 ^ numBits ≤ n), if_neg (by omega : ¬ 32 ≤ numBits)]
  by_cases hacc : 2 ^ numBits % n ≤ v * n % 2 ^ numBits
  · rw [uintnLoop_cons_accept [] (by rw [hlow]; exact hacc), hval]
    constructor
    · intro he
      injection he with h1 _
      exact ⟨hacc, h1⟩
    · rintro ⟨_, h2⟩
      rw [h2]
  · rw [uintnLoop_cons_reject [] (by rw [hlow]; exact hacc)]
    have h0 : uintnLoop n numBits (2 ^ numBits % n) ([] : List Nat)
        = Result.outOfDraws := rfl
    rw [h0]
    constructor
    · intro he
      exact Result.noConfusion he
    · rintro ⟨hc, _⟩
      exact absurd hc hacc

/-- C1: Exact uniformity.  For every non-zero 32-bit bound `n` and every
`i < n`, exactly `floor(2^32 / n)` of the `2^32` possible 32-bit values
`v` are accepted as a first draw by `UniformUint32` with result `i`;
likewise for the generalized width variant `uintn` with bound `m < 2^numBits`
(`1 ≤ numBits < 32`), with `2^numBits` in place of `2^32`. -/
theorem c1_exact_uniformity (n i numBits m j : Nat) (hn : 0 < n)
    (h32 : n < two32) (hi : i < n) (hb1 : 1 ≤ numBits) (hb : numBits < 32)
    (hm : 0 < m) (hmb : m < 2 ^ numBits) (hj : j < m) :
    ((Finset.range two32).filter
        fun v => UniformUint32 n [v] = Result.ok i 1).card = two32 / n
    ∧ ((Finset.range (2 ^ numBits)).filter
        fun v => uintn m numBits [v] = Result.ok j 1).card = 2 ^ numBits / m := by
  constructor
  · have hcong : ((Finset.range two32).filter
          fun v => UniformUint32 n [v] = Result.ok i 1)
        = (Finset.range two32).filter
          fun v => two32 % n ≤ v * n % two32 ∧ v * n / two32 = i :=
      Finset.filter_congr fun v hv =>
        uniform_single_ok_iff hn h32 (Finset.mem_range.mp hv)
    rw [hcong]
    exact card_accept_fiber two32 n i hn (le_of_lt h32) hi
  · have hcong : ((Finset.range (2 ^ numBits)).filter
          fun v => uintn m numBits [v] = Result.ok j 1)
        = (Finset.range (2 ^ numBits)).filter
          fun v => 2 ^ numBits % m ≤ v * m % 2 ^ numBits
            ∧ v * m / 2 ^ numBits = j :=
      Finset.filter_congr fun v hv =>
        uintn_single_ok_iff hm hb hmb (Finset.mem_range.mp hv)
    rw [hcong]
    exact card_accept_fiber (2 ^ numBits) m j hm (le_of_lt hmb) hj

/-- C1 witness at `n = 3`, `i = 1`, `numBits = 3`, `m = 3`, `j = 2`. -/
theorem c1_exact_uniformity_witness :
    ((Finset.range two32).filter
        fun v => UniformUint32 3 [v] = Result.ok 1 1).card = two32 / 3
    ∧ ((Finset.range (2 ^ 3)).filter
        fun v => uintn 3 3 [v] = Result.ok 2 1).card = 2 ^ 3 / 3 :=
  c1_exact_uniformity 3 1 3 3 2 (by decide) (by decide) (by decide) (by decide)
    (by decide) (by decide) (by decide) (by decide)

/-- C2: Range property.  For every non-zero bound `n` below `2^32` and every
draw list of 32-bit source values, a returning call of `UniformUint32`
yields a result strictly below `n`. -/
theorem c2_range (n : Nat) (draws : List Nat) (r k : Nat) (hn : 0 < n)
    (h32 : n < two32) (hd : ∀ v ∈ draws, v < two32)
    (hok : UniformUint32 n draws = Result.ok r k) : r < n :=
  uniform_ok_lt hn hd hok

/-- C2 witness at `n = 5`, draws `[7]`. -/
theorem c2_range_witness : (0 : Nat) < 5 :=
  c2_range 5 [7] 0 1 (by decide) (by decide) (by decide) (by decide)

/-- C3 counterexample: the optimized algorithm and the two-remainder
reference are not extensionally equal.  With `n = 5` and first draw `1`,
the optimized algorithm returns `0` while the reference returns `1`; with
draws `[0, 1]`, the optimized algorithm rejects the first draw and
consumes two draws while the reference accepts it and consumes one, so
the two are neither output-identical nor in lockstep. -/
theorem c3_two_remainder_counterexample :
    UniformUint32 5 [1] = Result.ok 0 1
    ∧ uniformUint32TwoRemainder 5 [1] = Result.ok 1 1
    ∧ UniformUint32 5 [1] ≠ uniformUint32TwoRemainder 5 [1]
    ∧ UniformUint32 5 [0, 1] = Result.ok 0 2
    ∧ uniformUint32TwoRemainder 5 [0, 1] = Result.ok 0 1 := by
  refine ⟨by decide, by decide, by decide, by decide, by decide⟩

/-- C3 amended: the optimized algorithm and the two-remainder reference
algorithm are equivalent in distribution, not per draw: for every non-zero
`n < 2^32` and every `i < n`, both produce `i` for exactly
`floor(2^32 / n)` of the `2^32` possible first draws, and both reject
exactly `2^32 mod n` of them. -/
theorem c3_two_remainder_equidistribution (n i : Nat) (hn : 0 < n)
    (h32 : n < two32) (hi : i < n) :
    ((Finset.range two32).filter
        fun v => UniformUint32 n [v] = Result.ok i 1).card = two32 / n
    ∧ ((Finset.range two32).filter
        fun v => uniformUint32TwoRemainder n [v] = Result.ok i 1).card
        = two32 / n
    ∧ ((Finset.range two32).filter
        fun v => UniformUint32 n [v] = Result.outOfDraws).card = two32 % n
    ∧ ((Finset.range two32).filter
        fun v => uniformUint32TwoRemainder n [v] = Result.outOfDraws).card
        = two32 % n := by
  refine ⟨?_, ?_, ?_, ?_⟩
  · have hcong : ((Finset.range two32).filter
          fun v => UniformUint32 n [v] = Result.ok i 1)
        = (Finset.range two32).filter
          fun v => two32 % n ≤ v * n % two32 ∧ v * n / two32 = i :=
      Finset.filter_congr fun v hv =>
        uniform_single_ok_iff hn h32 (Finset.mem_range.mp hv)
    rw [hcong]
    exact card_accept_fiber two32 n i hn (le_of_lt h32) hi
  · have hcong : ((Finset.range two32).filter
          fun v => uniformUint32TwoRemainder n [v] = Result.ok i 1)
        = (Finset.range two32).filter
          fun v => v < two32 - two32 % n ∧ v % n = i :=
      Finset.filter_congr fun v _ => twoRemainder_single_ok_iff hn
    rw [hcong]
    exact card_slow_fiber n i hn hi
  · have hcong : ((Finset.range two32).filter
          fun v => UniformUint32 n [v] = Result.outOfDraws)
        = (Finset.range two32).filter
          fun v => v * n % two32 < two32 % n :=
      Finset.filter_congr fun v _ =>
        uniform_single_reject_iff hn (le_of_lt h32)
    rw [hcong]
    exact card_reject two32 n hn (le_of_lt h32)
  · have hcong : ((Finset.range two32).filter
          fun v => uniformUint32TwoRemainder n [v] = Result.outOfDraws)
        = (Finset.range two32).filter
          fun v => two32 - two32 % n ≤ v :=
      Finset.filter_congr fun v _ => twoRemainder_single_reject_iff hn
    rw [hcong]
    exact card_slow_reject n hn

/-- C3 amended witness at `n = 5`, `i = 2`. -/
theorem c3_two_remainder_equidistribution_witness :
    ((Finset.range two32).filter
        fun v => UniformUint32 5 [v] = Result.ok 2 1).card = two32 / 5
    ∧ ((Finset.range two32).filter
        fun v => uniformUint32TwoRemainder 5 [v] = Result.ok 2 1).card
        = two32 / 5
    ∧ ((Finset.range two32).filter
        fun v => UniformUint32 5 [v] = Result.outOfDraws).card = two32 % 5
    ∧ ((Finset.range two32).filter
        fun v => uniformUint32TwoRemainder 5 [v] = Result.outOfDraws).card
        = two32 % 5 :=
  c3_two_remainder_equidistribution 5 2 (by decide) (by decide) (by decide)

/-- C4: Fast-path refinement.  For every non-zero bound and every draw
list, `UniformUint32` (unrolled first iteration, `low ≥ n` fast accept,
lazy threshold) returns the same `Result` (same value, same number of
draws consumed) as the plain one-remainder rejection loop
`uniformUint32Simple`; the fast accept is sound because the threshold is
strictly below `n`. -/
theorem c4_fast_path (n : Nat) (draws : List Nat) (hn : 0 < n) :
    UniformUint32 n draws = uniformUint32Simple n draws ∧ threshold n < n :=
  ⟨uniform_eq_simple_aux n draws hn, threshold_lt hn⟩

/-- C4 witness at `n = 5`, draws `[0, 7]` (first draw rejected). -/
theorem c4_fast_path_witness :
    UniformUint32 5 [0, 7] = uniformUint32Simple 5 [0, 7] ∧ threshold 5 < 5 :=
  c4_fast_path 5 [0, 7] (by decide)

/-- C5: Threshold identity.  For `1 ≤ n < 2^32`, the threshold computed by
`UniformUint32` as `uint32(-n) % n` equals `2^32 mod n` and is strictly
below `n`. -/
theorem c5_threshold_identity (n : Nat) (hn : 0 < n) (h32 : n < two32) :
    threshold n = two32 % n ∧ threshold n < n :=
  ⟨threshold_eq hn (le_of_lt h32), threshold_lt hn⟩

/-- C5 witness at `n = 5`. -/
theorem c5_threshold_identity_witness :
    threshold 5 = two32 % 5 ∧ threshold 5 < 5 :=
  c5_threshold_identity 5 (by decide) (by decide)

/-- C6: Zero-bound failure.  For every draw list (in particular the empty
one, so before any value is drawn), calling `UniformUint32` with `n = 0`
panics; since `Result.panicked` is distinct from every `Result.ok`, no
execution path returns a value. -/
theorem c6_zero_bound (draws : List Nat) :
    UniformUint32 0 draws = Result.panicked
    ∧ ∀ r k : Nat, UniformUint32 0 draws ≠ Result.ok r k := by
  have h : UniformUint32 0 draws = Result.panicked := by
    unfold UniformUint32
    rw [if_pos rfl]
  exact ⟨h, fun r k hc => Result.noConfusion (h ▸ hc)⟩

/-- C6 witness at draws `[3]` and at the empty draw list. -/
theorem c6_zero_bound_witness :
    (UniformUint32 0 [3] = Result.panicked
      ∧ ∀ r k : Nat, UniformUint32 0 [3] ≠ Result.ok r k)
    ∧ (UniformUint32 0 [] = Result.panicked
      ∧ ∀ r k : Nat, UniformUint32 0 [] ≠ Result.ok r k) :=
  ⟨c6_zero_bound [3], c6_zero_bound []⟩

/-- C7: Power-of-two exactness.  For `n = 2^k` with `k ≤ 31`, no draw is
ever rejected: the call consumes exactly one 32-bit source value `v` and
returns `floor(v * n / 2^32)`. -/
theorem c7_power_of_two (k v : Nat) (rest : List Nat) (hk : k ≤ 31)
    (hv : v < two32) :
    UniformUint32 (2 ^ k) (v :: rest) = Result.ok (v * 2 ^ k / two32) 1 := by
  have hn : 0 < 2 ^ k := Nat.two_pow_pos k
  have hle : (2 : Nat) ^ k ≤ two32 := by
    show (2 : Nat) ^ k ≤ 2 ^ 32
    exact Nat.pow_le_pow_right (by norm_num) (by omega)
  have hdvd : (2 : Nat) ^ k ∣ two32 := by
    show (2 : Nat) ^ k ∣ 2 ^ 32
    exact pow_dvd_pow 2 (by omega)
  have ht : threshold (2 ^ k) = 0 := by
    rw [threshold_eq hn hle]
    exact Nat.mod_eq_zero_of_dvd hdvd
  rw [uniform_eq_simple_aux _ _ hn]
  unfold uniformUint32Simple
  rw [if_neg (Nat.pos_iff_ne_zero.mp hn)]
  rw [lemireLoop_cons_accept rest (by rw [ht]; exact Nat.zero_le _)]
  have hdl : v * 2 ^ k / two32 < two32 := by
    have h2 : v * 2 ^ k / two32 < 2 ^ k := by
      apply (Nat.div_lt_iff_lt_mul two32_pos).mpr
      have h1 : v * 2 ^ k < two32 * 2 ^ k := (Nat.mul_lt_mul_right hn).mpr hv
      have hc : two32 * 2 ^ k = 2 ^ k * two32 := Nat.mul_comm _ _
      omega
    omega
  rw [Nat.mod_eq_of_lt hdl]

/-- C7 witness at `k = 3`, `v = 7`. -/
theorem c7_power_of_two_witness :
    UniformUint32 (2 ^ 3) [7] = Result.ok (7 * 2 ^ 3 / two32) 1 :=
  c7_power_of_two 3 7 [] (by decide) (by decide)

/-- C8: Boundary scenario `n = 5`: the threshold is `(2^32) mod 5 = 1`;
a first draw `v` with `(v * 5) mod 2^32 = 0` is rejected and (with the
next draw accepted) the call consumes exactly one extra draw, while a
first draw with low remainder at least `1` is accepted on the first try
with exactly one draw consumed. -/
theorem c8_boundary_five (v w u : Nat) (rest tail : List Nat)
    (hv : v < two32) (hu : u < two32) (hrej : v * 5 % two32 = 0)
    (haccw : 1 ≤ w * 5 % two32) (haccu : 1 ≤ u * 5 % two32) :
    threshold 5 = 1
    ∧ UniformUint32 5 (v :: w :: rest) = Result.ok (w * 5 / two32 % two32) 2
    ∧ UniformUint32 5 (u :: tail) = Result.ok (u * 5 / two32 % two32) 1 := by
  have ht : threshold 5 = 1 := by decide
  refine ⟨ht, ?_, ?_⟩
  · have hfast : ¬ (5 ≤ v * 5 % two32) := by omega
    have hth : ¬ (threshold 5 ≤ v * 5 % two32) := by
      rw [ht]
      omega
    rw [UniformUint32_cons v (w :: rest) (by decide), if_neg hfast, if_neg hth,
      lemireLoop_cons_accept rest (by rw [ht]; exact haccw)]
  · rw [uniform_eq_simple_aux _ _ (by decide)]
    unfold uniformUint32Simple
    rw [if_neg (by decide)]
    exact lemireLoop_cons_accept tail (by rw [ht]; exact haccu)

/-- C8 witness at first draw `0` (rejected) followed by `1` (accepted), and
single accepted draw `1`. -/
theorem c8_boundary_five_witness :
    threshold 5 = 1
    ∧ UniformUint32 5 [0, 1] = Result.ok (1 * 5 / two32 % two32) 2
    ∧ UniformUint32 5 [1] = Result.ok (1 * 5 / two32 % two32) 1 :=
  c8_boundary_five 0 1 1 [] [] (by decide) (by decide) (by decide) (by decide)
    (by decide)

/-- C9: Rejection bound and termination.  For every non-zero `n < 2^32`,
the set of 32-bit first draws rejected by `UniformUint32` is exactly the
set of `v` with `uint32(v * n) < 2^32 mod n`; it has exactly `2^32 mod n`
elements, which is strictly fewer than `2^31`; and every draw list
containing at least one accepted value makes the call return. -/
theorem c9_rejection_bound (n : Nat) (draws : List Nat) (hn : 0 < n)
    (h32 : n < two32)
    (hex : ∃ v ∈ draws, threshold n ≤ v * n % two32) :
    ((Finset.range two32).filter
        fun v => UniformUint32 n [v] = Result.outOfDraws)
      = ((Finset.range two32).filter fun v => v * n % two32 < two32 % n)
    ∧ ((Finset.range two32).filter
        fun v => UniformUint32 n [v] = Result.outOfDraws).card = two32 % n
    ∧ two32 % n < 2 ^ 31
    ∧ ∃ r k, UniformUint32 n draws = Result.ok r k := by
  have hcong : ((Finset.range two32).filter
        fun v => UniformUint32 n [v] = Result.outOfDraws)
      = (Finset.range two32).filter
        fun v => v * n % two32 < two32 % n :=
    Finset.filter_congr fun v _ =>
      uniform_single_reject_iff hn (le_of_lt h32)
  refine ⟨hcong, ?_, ?_, ?_⟩
  · rw [hcong]
    exact card_reject two32 n hn (le_of_lt h32)
  · have hmlt : two32 % n < n := Nat.mod_lt _ hn
    by_cases h : n ≤ 2 ^ 31
    · have h231 : (2 : Nat) ^ 31 + 2 ^ 31 = two32 := by norm_num [two32]
      omega
    · push_neg at h
      have hle : n ≤ two32 := le_of_lt h32
      have hsub : two32 % n = (two32 - n) % n := Nat.mod_eq_sub_mod hle
      have h231 : (2 : Nat) ^ 31 + 2 ^ 31 = two32 := by norm_num [two32]
      have hlt : two32 - n < n := by omega
      rw [hsub, Nat.mod_eq_of_lt hlt]
      omega
  · rw [uniform_eq_simple_aux n draws hn]
    unfold uniformUint32Simple
    rw [if_neg (Nat.pos_iff_ne_zero.mp hn)]
    exact lemireLoop_ok_of_mem hex

/-- C9 witness at `n = 5`, draws `[1]`. -/
theorem c9_rejection_bound_witness :
    ((Finset.range two32).filter
        fun v => UniformUint32 5 [v] = Result.outOfDraws)
      = ((Finset.range two32).filter fun v => v * 5 % two32 < two32 % 5)
    ∧ ((Finset.range two32).filter
        fun v => UniformUint32 5 [v] = Result.outOfDraws).card = two32 % 5
    ∧ two32 % 5 < 2 ^ 31
    ∧ ∃ r k, UniformUint32 5 [1] = Result.ok r k :=
  c9_rejection_bound 5 [1] (by decide) (by decide) (by decide)

/-- C10: Monotonicity of the result in the draw.  For a non-zero bound,
if `v1 ≤ v ≤ v2` are 32-bit first draws all accepted by `UniformUint32`,
the results are ordered (`r1 ≤ r ≤ r2`, so accepted draws yielding a given
result form a contiguous block), and each accepted draw returning `r1` is
at least `computeVStart r1 n = ceil(r1 * 2^32 / n)`. -/
theorem c10_monotone (n v1 v2 v r1 r2 r : Nat) (hn : 0 < n) (h32 : n < two32)
    (hv1 : v1 < two32) (hv2 : v2 < two32) (hle : v1 ≤ v2)
    (h1 : UniformUint32 n [v1] = Result.ok r1 1)
    (h2 : UniformUint32 n [v2] = Result.ok r2 1)
    (hm1 : v1 ≤ v) (hm2 : v ≤ v2)
    (hmid : UniformUint32 n [v] = Result.ok r 1) :
    r1 ≤ r2 ∧ computeVStart r1 n ≤ v1 ∧ r1 ≤ r ∧ r ≤ r2 := by
  have e1 := (uniform_single_ok_iff hn h32 hv1).mp h1
  have e2 := (uniform_single_ok_iff hn h32 hv2).mp h2
  have ev := (uniform_single_ok_iff hn h32 (lt_of_le_of_lt hm2 hv2)).mp hmid
  have mono : ∀ a b : Nat, a ≤ b → a * n / two32 ≤ b * n / two32 :=
    fun a b hab => Nat.div_le_div_right (Nat.mul_le_mul_right n hab)
  refine ⟨?_, ?_, ?_, ?_⟩
  · rw [← e1.2, ← e2.2]
    exact mono v1 v2 hle
  · unfold computeVStart
    have heq : r1 * two32 + (n - 1) = r1 * two32 + n - 1 := by omega
    rw [heq]
    refine (ceil_le_iff v1 hn).mpr ?_
    rw [← e1.2]
    exact Nat.div_mul_le_self _ _
  · rw [← e1.2, ← ev.2]
    exact mono v1 v hm1
  · rw [← ev.2, ← e2.2]
    exact mono v v2 hm2

/-- C10 witness at `n = 5`, draws `1 ≤ 2 ≤ 3`, all returning `0`. -/
theorem c10_monotone_witness :
    (0 : Nat) ≤ 0 ∧ computeVStart 0 5 ≤ 1 ∧ (0 : Nat) ≤ 0 ∧ (0 : Nat) ≤ 0 :=
  c10_monotone 5 1 3 2 0 0 0 (by decide) (by decide) (by decide) (by decide)
    (by decide) (by decide) (by decide) (by decide) (by decide) (by decide)

end Random
